import Mathlib

/-!
# Verification of the EnviormentScripts fan-out directory copier

Shallow embedding of the Go sources `main.go`, `enviorments2remote.go` and the
unnamed sequential variant (`src/unnamed/part_000`).  The core of all three
files is `copyDirectory`, a recursive tree copy driven by `filepath.Walk`
(directories: `os.MkdirAll(destPath, info.Mode())`; files: `os.Open`,
`os.Create`, `io.Copy`; abort on the first error), and an orchestrating loop in
`main` that, per environment prefix, creates the environment root directory and
then runs one copy per destination (concurrently through a `sync.WaitGroup` in
`main.go`/`enviorments2remote.go`, synchronously in the unnamed variant).

The destination side of the file system is modelled as an association list from
paths (lists of components) to nodes, together with a set of directories into
which creation is denied (modelling permission errors).  `filepath.Walk`'s
pre-order visit sequence is modelled by the entry list `entriesFrom [] src` and
a short-circuiting fold `filepathWalk`.  The WaitGroup orchestration is
modelled as a labelled transition system (`OStep` for the goroutine variants,
`SeqStep` for the sequential variant).
-/

namespace EnvScripts

/-- A file-system path, as a list of components relative to an ambient root. -/
abbrev Path := List String

/-- File contents, as a list of bytes. -/
abbrev Bytes := List Nat

/-- A node stored in the destination file system: a regular file with its
content, or a directory with its permission mode. -/
inductive FNode where
  | nFile (content : Bytes)
  | nDir (mode : Nat)
deriving DecidableEq, Repr

/-- The destination-side file system: an association list from paths to nodes,
plus the set of directories into which creation fails with permission denied
(modelling `EACCES` on an unwritable directory).  The ambient root `[]` is an
implicit, always-existing directory. -/
structure Fs where
  entries : List (Path × FNode)
  unwritable : List Path
deriving DecidableEq, Repr

/-- Association-list lookup used by `Fs.lookup`. -/
def lookupEntries (p : Path) : List (Path × FNode) → Option FNode
  | [] => none
  | (q, n) :: rest => if p = q then some n else lookupEntries p rest

/-- The node currently stored at path `p`, if any. -/
def Fs.lookup (fs : Fs) (p : Path) : Option FNode :=
  lookupEntries p fs.entries

/-- Store node `n` at path `p` (create or overwrite). -/
def Fs.set (fs : Fs) (p : Path) (n : FNode) : Fs :=
  ⟨(p, n) :: fs.entries, fs.unwritable⟩

/-- `p` currently denotes an existing directory (the ambient root `[]` always
does). -/
def Fs.isDir (fs : Fs) (p : Path) : Bool :=
  match p with
  | [] => true
  | _ =>
    match fs.lookup p with
    | some (.nDir _) => true
    | _ => false

/-- A new node can be created inside directory `d`: `d` exists as a directory
and is not flagged unwritable. -/
def Fs.canCreateIn (fs : Fs) (d : Path) : Bool :=
  fs.isDir d && !(decide (d ∈ fs.unwritable))

/-- Errors produced by the copy, mirroring the error classes of the Go code:
a source entry that cannot be read (`os.Open`/`io.Copy` failing), a
destination path that cannot be created (`os.Mkdir`/`os.Create` failing), and
a path component that exists but is not a directory (`ENOTDIR`). -/
inductive CopyErr where
  | sourceUnreadable (p : Path)
  | destWriteFailed (p : Path)
  | notADirectory (p : Path)
deriving DecidableEq, Repr

/-- One step of `os.MkdirAll`, i.e. `os.Mkdir`: an existing directory is left
alone and is not an error; an existing non-directory is `ENOTDIR`; otherwise
the directory is created with mode `mode` provided the parent admits creation.
The file system is returned alongside the outcome (failures leave it as-is). -/
def mkdir (fs : Fs) (p : Path) (mode : Nat) : Fs × Option CopyErr :=
  match fs.lookup p with
  | some (.nDir _) => (fs, none)
  | some (.nFile _) => (fs, some (.notADirectory p))
  | none =>
    if fs.canCreateIn p.dropLast then (fs.set p (.nDir mode), none)
    else (fs, some (.destWriteFailed p))

/-- Run a list of file-system steps in order, stopping at the first error and
keeping whatever state the steps produced so far (no rollback). -/
def runList {α : Type} (f : Fs → α → Fs × Option CopyErr) :
    Fs → List α → Fs × Option CopyErr
  | fs, [] => (fs, none)
  | fs, a :: rest =>
    match f fs a with
    | (fs', none) => runList f fs' rest
    | (fs', some e) => (fs', some e)

/-- All nonempty initial segments of `p`, shortest first: the chain of
directories `os.MkdirAll p` ensures, ending with `p` itself. -/
def pathsTo (p : Path) : List Path :=
  (List.range p.length).map (fun i => p.take (i + 1))

/-- `os.MkdirAll(p, mode)`: create `p` and any missing ancestors, each created
directory receiving mode `mode`; existing directories are not an error. -/
def mkdirAll (fs : Fs) (p : Path) (mode : Nat) : Fs × Option CopyErr :=
  runList (fun fs q => mkdir fs q mode) fs (pathsTo p)

/-- `os.Create(p)` followed by a full `io.Copy` of `content`: truncate-or-create
the file at `p`.  Creating over a directory fails (`os.Create` on a directory
errors); overwriting an existing file truncates it; creating a fresh file
requires the parent directory to exist and admit creation. -/
def osCreate (fs : Fs) (p : Path) (content : Bytes) : Fs × Option CopyErr :=
  match fs.lookup p with
  | some (.nDir _) => (fs, some (.notADirectory p))
  | some (.nFile _) => (fs.set p (.nFile content), none)
  | none =>
    if fs.canCreateIn p.dropLast then (fs.set p (.nFile content), none)
    else (fs, some (.destWriteFailed p))

/-- A source-tree entry: a regular file (with content, and a flag recording
whether reading it succeeds) or a directory with its mode and children.  The
source tree is read-only for the copy; it is therefore modelled as a pure
value. -/
inductive SEntry where
  | sfile (name : String) (content : Bytes) (readable : Bool)
  | sdir (name : String) (mode : Nat) (children : List SEntry)

/-- The name of a source entry. -/
def SEntry.name : SEntry → String
  | .sfile n _ _ => n
  | .sdir n _ _ => n

mutual

/-- The pre-order visit sequence of `filepath.Walk` rooted at `rel`: the entry
itself first (the root is visited with relative path `"."`, modelled as `[]`),
then the children in order, each under `rel ++ [child name]`.  A parent is
always listed before its children. -/
def entriesFrom (rel : Path) : SEntry → List (Path × SEntry)
  | .sfile n c r => [(rel, .sfile n c r)]
  | .sdir n m cs => (rel, .sdir n m cs) :: entriesChildren rel cs

/-- Visit sequence of a list of sibling entries below `rel`. -/
def entriesChildren (rel : Path) : List SEntry → List (Path × SEntry)
  | [] => []
  | c :: rest => entriesFrom (rel ++ [c.name]) c ++ entriesChildren rel rest

end

/-- The body of the `filepath.Walk` callback in `copyDirectory`, for the entry
at source-relative path `rel`: `destPath := filepath.Join(dest, relPath)`; for
a directory, `os.MkdirAll(destPath, info.Mode())`; for a file, `os.Open` of the
source (failing when the entry is unreadable), then `os.Create(destPath)` and
`io.Copy`. -/
def copyStep (dest : Path) (fs : Fs) : Path × SEntry → Fs × Option CopyErr
  | (rel, .sdir _ m _) => mkdirAll fs (dest ++ rel) m
  | (rel, .sfile _ c readable) =>
    if readable then osCreate fs (dest ++ rel) c
    else (fs, some (.sourceUnreadable rel))

/-- `filepath.Walk` with the callback of `copyDirectory`: process the visit
list in order, aborting at the first error and keeping the partial state. -/
def filepathWalk (dest : Path) (fs : Fs) (l : List (Path × SEntry)) :
    Fs × Option CopyErr :=
  runList (copyStep dest) fs l

/-- `copyDirectory(src, dest)`: walk the source tree in pre-order and replicate
it below `dest`, returning the updated destination file system and the first
error, if any. -/
def copyDirectory (src : SEntry) (dest : Path) (fs : Fs) : Fs × Option CopyErr :=
  filepathWalk dest fs (entriesFrom [] src)

/-- The fixed list of environment prefixes from `main`. -/
def environments : List String :=
  ["SANDBOX_", "DEV_", "STAGE_", "PREPROD_", "PROD_"]

/-- One destination of the fan-out: its root path and the state of its region
of the file system.  The goroutines of `main.go` share no mutable state — each
writes only below its own destination root — so each destination carries its
own file-system state. -/
structure DestSpec where
  root : Path
  fs : Fs
deriving DecidableEq, Repr

/-- The terminal outcome of one environment of the `main` loop: the
environment-root `os.MkdirAll` failed (the copy is never dispatched), the
dispatched copy failed, or everything succeeded. -/
inductive EnvOutcome where
  | mkdirFailed (e : CopyErr)
  | copyFailed (e : CopyErr)
  | success
deriving DecidableEq, Repr

/-- One iteration of the `main` loop for a single destination:
`os.MkdirAll(envDirPath, 0755)`, and on success the dispatched
`copyDirectory`.  Returns the outcome together with the destination's final
file-system state. -/
def runEnv (src : SEntry) (d : DestSpec) : EnvOutcome × Fs :=
  match mkdirAll d.fs d.root 0o755 with
  | (fs', some e) => (.mkdirFailed e, fs')
  | (fs', none) =>
    match copyDirectory src d.root fs' with
    | (fs'', none) => (.success, fs'')
    | (fs'', some e) => (.copyFailed e, fs'')

/-- The whole fan-out: one terminal outcome per destination, index-aligned
with the destination list. -/
def copyToMany (src : SEntry) (dests : List DestSpec) : List (EnvOutcome × Fs) :=
  dests.map (runEnv src)

/-! ## Basic lemmas on the file-system primitives -/

theorem Fs.lookup_set (fs : Fs) (p q : Path) (n : FNode) :
    (fs.set p n).lookup q = if q = p then some n else fs.lookup q := rfl

theorem Fs.unwritable_set (fs : Fs) (p : Path) (n : FNode) :
    (fs.set p n).unwritable = fs.unwritable := rfl

theorem Fs.isDir_of_lookup {fs : Fs} {q : Path} {m : Nat}
    (h : fs.lookup q = some (.nDir m)) : fs.isDir q = true := by
  cases q with
  | nil => rfl
  | cons a t => simp [Fs.isDir, h]

theorem Fs.lookup_of_isDir {fs : Fs} {q : Path} (hq : q ≠ [])
    (h : fs.isDir q = true) : ∃ m, fs.lookup q = some (.nDir m) := by
  cases q with
  | nil => exact absurd rfl hq
  | cons a t =>
    unfold Fs.isDir at h
    rcases hl : fs.lookup (a :: t) with _ | n
    · rw [hl] at h; simp at h
    · cases n with
      | nFile c => rw [hl] at h; simp at h
      | nDir m => exact ⟨m, rfl⟩

theorem mkdir_unwritable (fs : Fs) (p : Path) (m : Nat) :
    (mkdir fs p m).1.unwritable = fs.unwritable := by
  unfold mkdir
  split
  · rfl
  · rfl
  · split <;> rfl

theorem mkdir_lookup_of_ne (fs : Fs) (p : Path) (m : Nat) {q : Path} (h : q ≠ p) :
    (mkdir fs p m).1.lookup q = fs.lookup q := by
  unfold mkdir
  split
  · rfl
  · rfl
  · split
    · simp [Fs.lookup_set, h]
    · rfl

theorem mkdir_changes {fs : Fs} {p : Path} {m : Nat} {q : Path}
    (h : (mkdir fs p m).1.lookup q ≠ fs.lookup q) : q = p ∧ fs.lookup q = none := by
  by_cases hq : q = p
  · subst hq
    refine ⟨rfl, ?_⟩
    rcases hl : fs.lookup q with _ | n
    · rfl
    · exfalso
      cases n <;> simp [mkdir, hl] at h
  · exact absurd (mkdir_lookup_of_ne fs p m hq) h

theorem mkdir_of_dir {fs : Fs} {p : Path} (m : Nat) {m' : Nat}
    (h : fs.lookup p = some (.nDir m')) : mkdir fs p m = (fs, none) := by
  simp [mkdir, h]

theorem mkdir_preserves_dir {fs : Fs} (p : Path) (m : Nat) {q : Path} {m' : Nat}
    (h : fs.lookup q = some (.nDir m')) :
    (mkdir fs p m).1.lookup q = some (.nDir m') := by
  by_cases hq : q = p
  · subst hq
    rw [mkdir_of_dir m h]
    exact h
  · rw [mkdir_lookup_of_ne fs p m hq]
    exact h

theorem mkdir_preserves_some {fs : Fs} (p : Path) (m : Nat) {q : Path} {v : FNode}
    (h : fs.lookup q = some v) : ∃ v', (mkdir fs p m).1.lookup q = some v' := by
  by_cases hch : (mkdir fs p m).1.lookup q = fs.lookup q
  · exact ⟨v, hch.trans h⟩
  · obtain ⟨-, hnone⟩ := mkdir_changes hch
    rw [hnone] at h
    cases h

theorem mkdir_ok_dir {fs fs' : Fs} {p : Path} {m : Nat}
    (h : mkdir fs p m = (fs', none)) :
    ∃ m', fs'.lookup p = some (.nDir m') ∧ (fs.lookup p = none → m' = m) := by
  unfold mkdir at h
  split at h
  case h_1 m' heq =>
    cases h
    exact ⟨m', heq, fun hn => by rw [heq] at hn; cases hn⟩
  case h_2 c heq => simp at h
  case h_3 heq =>
    split at h
    · cases h
      refine ⟨m, ?_, fun _ => rfl⟩
      simp [Fs.lookup_set]
    · simp at h

theorem mkdir_ok_file {fs fs' : Fs} {p : Path} {m : Nat} {q : Path} {c : Bytes}
    (h : mkdir fs p m = (fs', none)) (hq : fs.lookup q = some (.nFile c)) :
    fs'.lookup q = some (.nFile c) := by
  by_cases hqp : q = p
  · subst hqp
    unfold mkdir at h
    rw [hq] at h
    simp at h
  · have hne := mkdir_lookup_of_ne fs p m hqp
    rw [h] at hne
    rw [hne]
    exact hq

/-! ## Lemmas on `runList` -/

theorem runList_nil {α : Type} (f : Fs → α → Fs × Option CopyErr) (fs : Fs) :
    runList f fs [] = (fs, none) := rfl

theorem runList_cons {α : Type} (f : Fs → α → Fs × Option CopyErr) (fs : Fs)
    (a : α) (l : List α) :
    runList f fs (a :: l) =
      match f fs a with
      | (fs', none) => runList f fs' l
      | (fs', some e) => (fs', some e) := rfl

theorem runList_append {α : Type} (f : Fs → α → Fs × Option CopyErr) (fs : Fs)
    (l₁ l₂ : List α) :
    runList f fs (l₁ ++ l₂) =
      match runList f fs l₁ with
      | (fs₁, none) => runList f fs₁ l₂
      | (fs₁, some e) => (fs₁, some e) := by
  induction l₁ generalizing fs with
  | nil => rfl
  | cons a rest ih =>
    rw [List.cons_append, runList_cons, runList_cons]
    rcases hfa : f fs a with ⟨fs₁, o⟩
    cases o with
    | none => exact ih fs₁
    | some e => rfl

theorem runList_preserves {α : Type} {P : Fs → Prop} {f : Fs → α → Fs × Option CopyErr}
    (hstep : ∀ fs a, P fs → P (f fs a).1) :
    ∀ (l : List α) (fs : Fs), P fs → P (runList f fs l).1 := by
  intro l
  induction l with
  | nil => exact fun fs h => h
  | cons a rest ih =>
    intro fs h
    rw [runList_cons]
    rcases hfa : f fs a with ⟨fs₁, o⟩
    have hP : P fs₁ := by
      have := hstep fs a h
      rw [hfa] at this
      exact this
    cases o with
    | none => exact ih fs₁ hP
    | some e => exact hP

theorem runList_noop {α : Type} {f : Fs → α → Fs × Option CopyErr} {fs : Fs}
    {l : List α} (h : ∀ a ∈ l, f fs a = (fs, none)) :
    runList f fs l = (fs, none) := by
  induction l with
  | nil => rfl
  | cons a rest ih =>
    rw [runList_cons, h a (List.mem_cons_self a rest)]
    exact ih (fun b hb => h b (List.mem_cons_of_mem a hb))

/-! ## Lemmas on `pathsTo` and `mkdirAll` -/

theorem mem_pathsTo {q p : Path} : q ∈ pathsTo p ↔ q ≠ [] ∧ q <+: p := by
  constructor
  · intro hq
    simp only [pathsTo, List.mem_map, List.mem_range] at hq
    obtain ⟨i, hi, rfl⟩ := hq
    have hlen : (p.take (i + 1)).length = i + 1 := by
      rw [List.length_take]
      omega
    refine ⟨?_, ⟨p.drop (i + 1), List.take_append_drop _ _⟩⟩
    intro h0
    rw [h0] at hlen
    simp at hlen
  · rintro ⟨hne, hpre⟩
    have hpos : 0 < q.length := List.length_pos.mpr hne
    have hle : q.length ≤ p.length := hpre.length_le
    have hq : q = p.take q.length := List.prefix_iff_eq_take.mp hpre
    simp only [pathsTo, List.mem_map, List.mem_range]
    refine ⟨q.length - 1, by omega, ?_⟩
    have h1 : q.length - 1 + 1 = q.length := by omega
    rw [h1]
    exact hq.symm

theorem mkdirAll_unwritable (fs : Fs) (p : Path) (m : Nat) :
    (mkdirAll fs p m).1.unwritable = fs.unwritable := by
  have := runList_preserves (P := fun g => g.unwritable = fs.unwritable)
    (f := fun g q => mkdir g q m) ?_ (pathsTo p) fs rfl
  · exact this
  · intro g q hg
    rw [mkdir_unwritable]
    exact hg

theorem runList_mkdir_changes {m : Nat} {q : Path} :
    ∀ (l : List Path) (g : Fs),
      (runList (fun g q => mkdir g q m) g l).1.lookup q ≠ g.lookup q →
      g.lookup q = none ∧ q ∈ l := by
  intro l
  induction l with
  | nil => exact fun g hg => absurd rfl hg
  | cons a rest ih =>
    intro g hg
    rw [runList_cons] at hg
    rcases hfa : mkdir g a m with ⟨g₁, o⟩
    have h1 : (mkdir g a m).1 = g₁ := by rw [hfa]
    cases o with
    | some e =>
      rw [hfa] at hg
      have : g₁.lookup q ≠ g.lookup q := hg
      obtain ⟨hqa, hnone⟩ := mkdir_changes (h1 ▸ this)
      exact ⟨hnone, by rw [hqa]; exact List.mem_cons_self a rest⟩
    | none =>
      rw [hfa] at hg
      by_cases hch : g₁.lookup q = g.lookup q
      · have := ih g₁ (by rw [hch]; exact hg)
        exact ⟨hch ▸ this.1, List.mem_cons_of_mem a this.2⟩
      · obtain ⟨hqa, hnone⟩ := mkdir_changes (h1 ▸ hch)
        exact ⟨hnone, by rw [hqa]; exact List.mem_cons_self a rest⟩

theorem mkdirAll_changes {fs : Fs} {p : Path} {m : Nat} {q : Path}
    (h : (mkdirAll fs p m).1.lookup q ≠ fs.lookup q) :
    fs.lookup q = none ∧ q ≠ [] ∧ q <+: p := by
  unfold mkdirAll at h
  obtain ⟨hnone, hmem⟩ := runList_mkdir_changes (pathsTo p) fs h
  exact ⟨hnone, (mem_pathsTo.mp hmem).1, (mem_pathsTo.mp hmem).2⟩

theorem mkdirAll_preserves_dir {fs : Fs} (p : Path) (m : Nat) {q : Path} {m' : Nat}
    (h : fs.lookup q = some (.nDir m')) :
    (mkdirAll fs p m).1.lookup q = some (.nDir m') := by
  exact runList_preserves (P := fun g => g.lookup q = some (.nDir m'))
    (fun g a hg => mkdir_preserves_dir a m hg) (pathsTo p) fs h

theorem mkdirAll_preserves_some {fs : Fs} (p : Path) (m : Nat) {q : Path} {v : FNode}
    (h : fs.lookup q = some v) : ∃ v', (mkdirAll fs p m).1.lookup q = some v' := by
  exact runList_preserves (P := fun g => ∃ v', g.lookup q = some v')
    (fun g a ⟨w, hg⟩ => mkdir_preserves_some a m hg) (pathsTo p) fs ⟨v, h⟩

theorem runList_ok_post {α : Type} {f : Fs → α → Fs × Option CopyErr}
    {Q : α → Fs → Prop}
    (hest : ∀ g a g₁, f g a = (g₁, none) → Q a g₁)
    (hpres : ∀ g a b, Q b g → Q b (f g a).1) :
    ∀ (l : List α) (g g' : Fs), runList f g l = (g', none) → ∀ a ∈ l, Q a g' := by
  intro l
  induction l with
  | nil => intro g g' h a ha; cases ha
  | cons a rest ih =>
    intro g g' h b hb
    rw [runList_cons] at h
    rcases hfa : f g a with ⟨g₁, o⟩
    rw [hfa] at h
    cases o with
    | some e => exact absurd h (by simp)
    | none =>
      have h' : runList f g₁ rest = (g', none) := h
      rcases List.mem_cons.mp hb with hba | hbr
      · subst hba
        have hQ : Q b g₁ := hest g b g₁ hfa
        have hfin : Q b (runList f g₁ rest).1 :=
          runList_preserves (fun g2 a2 hg2 => hpres g2 a2 b hg2) rest g₁ hQ
        rw [h'] at hfin
        exact hfin
      · exact ih g₁ g' h' b hbr

theorem mkdirAll_ok_dirs {fs fs' : Fs} {p : Path} {m : Nat}
    (h : mkdirAll fs p m = (fs', none)) :
    ∀ q ∈ pathsTo p, ∃ m', fs'.lookup q = some (.nDir m') := by
  unfold mkdirAll at h
  refine runList_ok_post (Q := fun q g => ∃ m', g.lookup q = some (.nDir m'))
    ?_ ?_ (pathsTo p) fs fs' h
  · intro g a g₁ ha
    obtain ⟨m', hm', -⟩ := mkdir_ok_dir ha
    exact ⟨m', hm'⟩
  · rintro g a b ⟨m', hb⟩
    exact ⟨m', mkdir_preserves_dir a m hb⟩

theorem mkdirAll_ok_self {fs fs' : Fs} {p : Path} {m : Nat} (hp : p ≠ [])
    (h : mkdirAll fs p m = (fs', none)) :
    ∃ m', fs'.lookup p = some (.nDir m') :=
  mkdirAll_ok_dirs h p (mem_pathsTo.mpr ⟨hp, List.prefix_rfl⟩)

theorem pathsTo_concat {p : Path} (hp : p ≠ []) :
    pathsTo p = (List.range (p.length - 1)).map (fun i => p.take (i + 1)) ++ [p] := by
  have hpos : 0 < p.length := List.length_pos.mpr hp
  have h1 : p.length = (p.length - 1) + 1 := by omega
  unfold pathsTo
  rw [h1, List.range_succ, List.map_append]
  congr 1
  simp only [List.map_cons, List.map_nil]
  congr 1
  rw [← h1]
  exact List.take_length p

theorem mkdirAll_new_mode {fs fs' : Fs} {p : Path} {m : Nat} (hp : p ≠ [])
    (hnone : fs.lookup p = none) (h : mkdirAll fs p m = (fs', none)) :
    fs'.lookup p = some (.nDir m) := by
  unfold mkdirAll at h
  rw [pathsTo_concat hp] at h
  rw [runList_append] at h
  rcases hfront : runList (fun g q => mkdir g q m) fs
      ((List.range (p.length - 1)).map (fun i => p.take (i + 1))) with ⟨fs₁, o₁⟩
  rw [hfront] at h
  cases o₁ with
  | some e => simp at h
  | none =>
    have hfs₁ : fs₁.lookup p = none := by
      by_cases hch : fs₁.lookup p = fs.lookup p
      · rw [hch]; exact hnone
      · exfalso
        have h1 : (runList (fun g q => mkdir g q m) fs
            ((List.range (p.length - 1)).map (fun i => p.take (i + 1)))).1.lookup p ≠
            fs.lookup p := by rw [hfront]; exact hch
        obtain ⟨-, hmem⟩ := runList_mkdir_changes _ fs h1
        simp only [List.mem_map, List.mem_range] at hmem
        obtain ⟨i, hi, htake⟩ := hmem
        have : (p.take (i + 1)).length = i + 1 := by
          rw [List.length_take]; omega
        rw [htake] at this
        omega
    simp only [runList_cons, runList_nil] at h
    rcases hmk : mkdir fs₁ p m with ⟨fs₂, o₂⟩
    rw [hmk] at h
    cases o₂ with
    | some e => simp at h
    | none =>
      obtain ⟨m', hm', hmode⟩ := mkdir_ok_dir hmk
      have hfs2 : fs₂ = fs' := by simpa using h
      rw [← hfs2, hm', hmode hfs₁]

theorem mkdirAll_noop {fs : Fs} {p : Path} {m : Nat}
    (h : ∀ q ∈ pathsTo p, ∃ m', fs.lookup q = some (.nDir m')) :
    mkdirAll fs p m = (fs, none) := by
  refine runList_noop ?_
  intro q hq
  obtain ⟨m', hm'⟩ := h q hq
  exact mkdir_of_dir m hm'

/-! ## Lemmas on `osCreate` -/

theorem osCreate_unwritable (fs : Fs) (p : Path) (c : Bytes) :
    (osCreate fs p c).1.unwritable = fs.unwritable := by
  unfold osCreate
  split
  · rfl
  · rfl
  · split <;> rfl

theorem osCreate_lookup_of_ne (fs : Fs) (p : Path) (c : Bytes) {q : Path} (h : q ≠ p) :
    (osCreate fs p c).1.lookup q = fs.lookup q := by
  unfold osCreate
  split
  · rfl
  · simp [Fs.lookup_set, h]
  · split
    · simp [Fs.lookup_set, h]
    · rfl

theorem osCreate_changes {fs : Fs} {p : Path} {c : Bytes} {q : Path}
    (h : (osCreate fs p c).1.lookup q ≠ fs.lookup q) : q = p := by
  by_contra hq
  exact h (osCreate_lookup_of_ne fs p c hq)

theorem osCreate_preserves_dir {fs : Fs} (p : Path) (c : Bytes) {q : Path} {m' : Nat}
    (h : fs.lookup q = some (.nDir m')) :
    (osCreate fs p c).1.lookup q = some (.nDir m') := by
  by_cases hq : q = p
  · subst hq
    simp [osCreate, h]
  · rw [osCreate_lookup_of_ne fs p c hq]
    exact h

theorem osCreate_preserves_some {fs : Fs} (p : Path) (c : Bytes) {q : Path} {v : FNode}
    (h : fs.lookup q = some v) : ∃ v', (osCreate fs p c).1.lookup q = some v' := by
  by_cases hch : (osCreate fs p c).1.lookup q = fs.lookup q
  · exact ⟨v, hch.trans h⟩
  · have hq : q = p := osCreate_changes hch
    subst hq
    cases v with
    | nDir m' => exact ⟨_, osCreate_preserves_dir q c h⟩
    | nFile c' => exact ⟨.nFile c, by simp [osCreate, h, Fs.lookup_set]⟩

theorem osCreate_ok {fs fs' : Fs} {p : Path} {c : Bytes}
    (h : osCreate fs p c = (fs', none)) : fs'.lookup p = some (.nFile c) := by
  unfold osCreate at h
  split at h
  · simp at h
  · cases h
    simp [Fs.lookup_set]
  · split at h
    · cases h
      simp [Fs.lookup_set]
    · simp at h

/-! ## Lemmas on `copyStep` -/

theorem copyStep_unwritable (dest : Path) (fs : Fs) (x : Path × SEntry) :
    (copyStep dest fs x).1.unwritable = fs.unwritable := by
  rcases x with ⟨rel, e⟩
  cases e with
  | sdir n m cs => exact mkdirAll_unwritable fs (dest ++ rel) m
  | sfile n c r =>
    cases r with
    | true => exact osCreate_unwritable fs (dest ++ rel) c
    | false => rfl

theorem copyStep_changes {dest : Path} {fs : Fs} {x : Path × SEntry} {q : Path}
    (h : (copyStep dest fs x).1.lookup q ≠ fs.lookup q) :
    (fs.lookup q = none ∧ q ≠ [] ∧ q <+: dest ++ x.1) ∨ q = dest ++ x.1 := by
  rcases x with ⟨rel, e⟩
  cases e with
  | sdir n m cs => exact Or.inl (mkdirAll_changes h)
  | sfile n c r =>
    cases r with
    | true => exact Or.inr (osCreate_changes h)
    | false => exact absurd rfl h

theorem copyStep_preserves_dir {dest : Path} (fs : Fs) (x : Path × SEntry)
    {q : Path} {m' : Nat} (h : fs.lookup q = some (.nDir m')) :
    (copyStep dest fs x).1.lookup q = some (.nDir m') := by
  rcases x with ⟨rel, e⟩
  cases e with
  | sdir n m cs => exact mkdirAll_preserves_dir (dest ++ rel) m h
  | sfile n c r =>
    cases r with
    | true => exact osCreate_preserves_dir (dest ++ rel) c h
    | false => exact h

theorem copyStep_preserves_some {dest : Path} (fs : Fs) (x : Path × SEntry)
    {q : Path} {v : FNode} (h : fs.lookup q = some v) :
    ∃ v', (copyStep dest fs x).1.lookup q = some v' := by
  rcases x with ⟨rel, e⟩
  cases e with
  | sdir n m cs => exact mkdirAll_preserves_some (dest ++ rel) m h
  | sfile n c r =>
    cases r with
    | true => exact osCreate_preserves_some (dest ++ rel) c h
    | false => exact ⟨v, h⟩

theorem copyStep_frame_of_some {dest : Path} {fs : Fs} {x : Path × SEntry}
    {q : Path} {v : FNode} (hv : fs.lookup q = some v)
    (hnp : ¬ (q <+: dest ++ x.1)) :
    (copyStep dest fs x).1.lookup q = fs.lookup q := by
  by_contra hch
  rcases copyStep_changes hch with ⟨hnone, -, hpre⟩ | hq
  · rw [hnone] at hv; cases hv
  · exact hnp (hq ▸ List.prefix_rfl)

/-- The postcondition the walk callback establishes for the entry it visits:
a file's destination path holds exactly the source bytes; a directory's
destination path holds a directory whose mode is the source mode whenever the
path did not exist in `fs0` (the state before the entry was processed). -/
def entryHolds (dest : Path) (fs0 fsF : Fs) : Path × SEntry → Prop
  | (rel, .sfile _ c _) => fsF.lookup (dest ++ rel) = some (.nFile c)
  | (rel, .sdir _ m _) =>
    ∃ m', fsF.lookup (dest ++ rel) = some (.nDir m') ∧
      (fs0.lookup (dest ++ rel) = none → m' = m)

theorem copyStep_ok_post {dest : Path} {fs fs₁ : Fs} {x : Path × SEntry}
    (hd : dest ≠ []) (h : copyStep dest fs x = (fs₁, none)) :
    entryHolds dest fs fs₁ x := by
  rcases x with ⟨rel, e⟩
  have hne : dest ++ rel ≠ [] := by
    intro hcon
    exact hd (List.append_eq_nil.mp hcon).1
  cases e with
  | sfile n c r =>
    cases r with
    | true => exact osCreate_ok h
    | false => exact absurd h (by simp [copyStep])
  | sdir n m cs =>
    by_cases h0 : fs.lookup (dest ++ rel) = none
    · exact ⟨m, mkdirAll_new_mode hne h0 h, fun _ => rfl⟩
    · obtain ⟨m', hm'⟩ := mkdirAll_ok_self hne h
      exact ⟨m', hm', fun hcon => absurd hcon h0⟩

/-! ## Lemmas on `filepathWalk` -/

theorem filepathWalk_nil (dest : Path) (fs : Fs) :
    filepathWalk dest fs [] = (fs, none) := rfl

theorem filepathWalk_cons (dest : Path) (fs : Fs) (x : Path × SEntry)
    (l : List (Path × SEntry)) :
    filepathWalk dest fs (x :: l) =
      match copyStep dest fs x with
      | (fs', none) => filepathWalk dest fs' l
      | (fs', some e) => (fs', some e) := rfl

theorem filepathWalk_unwritable (dest : Path) (fs : Fs) (l : List (Path × SEntry)) :
    (filepathWalk dest fs l).1.unwritable = fs.unwritable := by
  refine runList_preserves (P := fun g => g.unwritable = fs.unwritable) ?_ l fs rfl
  intro g x hg
  rw [copyStep_unwritable]
  exact hg

theorem filepathWalk_changes {dest : Path} {fs : Fs} {l : List (Path × SEntry)}
    {q : Path} (h : (filepathWalk dest fs l).1.lookup q ≠ fs.lookup q) :
    (fs.lookup q = none ∧ q ≠ [] ∧ ∃ x ∈ l, q <+: dest ++ x.1) ∨
      ∃ x ∈ l, q = dest ++ x.1 := by
  induction l generalizing fs with
  | nil => exact absurd rfl h
  | cons a rest ih =>
    rw [filepathWalk_cons] at h
    rcases hfa : copyStep dest fs a with ⟨fs₁, o⟩
    rw [hfa] at h
    have h1 : (copyStep dest fs a).1 = fs₁ := by rw [hfa]
    cases o with
    | some e =>
      rcases copyStep_changes (q := q) (h1 ▸ h) with ⟨hnone, hq, hpre⟩ | hq
      · exact Or.inl ⟨hnone, hq, a, List.mem_cons_self a rest, hpre⟩
      · exact Or.inr ⟨a, List.mem_cons_self a rest, hq⟩
    | none =>
      by_cases hch : fs₁.lookup q = fs.lookup q
      · have h2 : (filepathWalk dest fs₁ rest).1.lookup q ≠ fs₁.lookup q := by
          rw [hch]; exact h
        rcases ih h2 with ⟨hnone, hq, x, hx, hpre⟩ | ⟨x, hx, hq⟩
        · exact Or.inl ⟨hch ▸ hnone, hq, x, List.mem_cons_of_mem a hx, hpre⟩
        · exact Or.inr ⟨x, List.mem_cons_of_mem a hx, hq⟩
      · rcases copyStep_changes (q := q) (h1 ▸ hch) with ⟨hnone, hq, hpre⟩ | hq
        · exact Or.inl ⟨hnone, hq, a, List.mem_cons_self a rest, hpre⟩
        · exact Or.inr ⟨a, List.mem_cons_self a rest, hq⟩

theorem filepathWalk_preserves_dir (dest : Path) (fs : Fs) (l : List (Path × SEntry))
    {q : Path} {m' : Nat} (h : fs.lookup q = some (.nDir m')) :
    (filepathWalk dest fs l).1.lookup q = some (.nDir m') := by
  refine runList_preserves (P := fun g => g.lookup q = some (.nDir m')) ?_ l fs h
  intro g x hg
  exact copyStep_preserves_dir g x hg

theorem filepathWalk_frame_of_some {dest : Path} {l : List (Path × SEntry)} :
    ∀ {fs : Fs} {v : FNode} {q : Path}, fs.lookup q = some v →
      (∀ x ∈ l, ¬ (q <+: dest ++ x.1)) →
      (filepathWalk dest fs l).1.lookup q = fs.lookup q := by
  induction l with
  | nil => intro fs v q hv hnp; rfl
  | cons a rest ih =>
    intro fs v q hv hnp
    rw [filepathWalk_cons]
    rcases hfa : copyStep dest fs a with ⟨fs₁, o⟩
    have h1 : (copyStep dest fs a).1 = fs₁ := by rw [hfa]
    have hstep : fs₁.lookup q = fs.lookup q :=
      h1 ▸ copyStep_frame_of_some hv (hnp a (List.mem_cons_self a rest))
    cases o with
    | some e => exact hstep
    | none =>
      have hv₁ : fs₁.lookup q = some v := hstep.trans hv
      have := ih hv₁ (fun x hx => hnp x (List.mem_cons_of_mem a hx))
      rw [this, hstep]

/-! ## Ordering of the walk's visit list

`filepath.Walk` visits a real directory tree in pre-order: no entry's relative
path strictly precedes one of its ancestors, sibling names inside one
directory are distinct, and nothing is ever visited below a file.  These facts
about the visit list are captured by `TreeOrdered`; they are decidable and can
be checked by evaluation on any concrete tree. -/

/-- Whether a source entry is a regular file. -/
def SEntry.isFile : SEntry → Bool
  | .sfile _ _ _ => true
  | .sdir _ _ _ => false

/-- The relation between an earlier visit `a` and a later visit `b` of a
pre-order walk of a real tree: the later path is never a prefix of the earlier
one (parents come first, and paths are distinct), and nothing is visited below
a file. -/
def StepOrdered (a b : Path × SEntry) : Prop :=
  ¬ (b.1 <+: a.1) ∧ (a.2.isFile = true → ¬ (a.1 <+: b.1))

instance : DecidableRel StepOrdered := fun a b => by
  unfold StepOrdered
  infer_instance

/-- The visit list is ordered as a pre-order walk of a real tree. -/
def TreeOrdered (l : List (Path × SEntry)) : Prop := l.Pairwise StepOrdered

instance : DecidablePred TreeOrdered := fun l => by
  unfold TreeOrdered
  infer_instance

/-- Every prefix of a visited relative path is itself a visited relative path
(ancestor directories are themselves entries of the walk). -/
def PrefixClosed (l : List (Path × SEntry)) : Prop :=
  ∀ x ∈ l, ∀ i ∈ List.range x.1.length, x.1.take i ∈ l.map Prod.fst

instance : DecidablePred PrefixClosed := fun l => by
  unfold PrefixClosed
  infer_instance

/-- Main correctness of a successful walk: every visited entry's postcondition
holds in the final state — files hold exactly the source bytes, directories
exist, and a directory that was absent initially carries the source mode. -/
theorem filepathWalk_ok_holds {dest : Path} (hd : dest ≠ []) :
    ∀ (l : List (Path × SEntry)) (fs fs' : Fs), TreeOrdered l →
      filepathWalk dest fs l = (fs', none) → ∀ x ∈ l, entryHolds dest fs fs' x := by
  intro l
  induction l with
  | nil => intro fs fs' _ _ x hx; cases hx
  | cons a rest ih =>
    intro fs fs' hord h x hx
    rw [filepathWalk_cons] at h
    rcases hfa : copyStep dest fs a with ⟨fs₁, o⟩
    rw [hfa] at h
    cases o with
    | some e => exact absurd h (by simp)
    | none =>
      have h' : filepathWalk dest fs₁ rest = (fs', none) := h
      have hpair := (List.pairwise_cons.mp hord).1
      have hrest := (List.pairwise_cons.mp hord).2
      rcases List.mem_cons.mp hx with hxa | hxr
      · subst hxa
        have hpost : entryHolds dest fs fs₁ x := copyStep_ok_post hd hfa
        rcases x with ⟨rel, e⟩
        cases e with
        | sdir n m cs =>
          obtain ⟨m', hm', hmode⟩ := hpost
          refine ⟨m', ?_, hmode⟩
          have hpd := filepathWalk_preserves_dir dest fs₁ rest hm'
          rw [h'] at hpd
          exact hpd
        | sfile n c r =>
          have hfile : fs₁.lookup (dest ++ rel) = some (.nFile c) := hpost
          have hfr : ∀ b ∈ rest, ¬ ((dest ++ rel) <+: dest ++ b.1) := by
            intro b hb hcon
            have hp : rel <+: b.1 := (List.prefix_append_right_inj dest).mp hcon
            exact (hpair b hb).2 rfl hp
          have hkeep := filepathWalk_frame_of_some hfile hfr
          rw [h'] at hkeep
          exact hkeep.trans hfile
      · have hih := ih fs₁ fs' hrest h' x hxr
        rcases x with ⟨rel, e⟩
        cases e with
        | sfile n c r => exact hih
        | sdir n m cs =>
          obtain ⟨m', hm', hmode⟩ := hih
          refine ⟨m', hm', fun h0 => hmode ?_⟩
          by_contra h1
          have hch : fs₁.lookup (dest ++ rel) ≠ fs.lookup (dest ++ rel) := by
            rw [h0]; exact h1
          have h2 : (copyStep dest fs a).1 = fs₁ := by rw [hfa]
          rcases copyStep_changes (h2 ▸ hch) with ⟨-, -, hpre⟩ | heq
          · have hp : rel <+: a.1 := (List.prefix_append_right_inj dest).mp hpre
            exact (hpair (rel, .sdir n m cs) hxr).1 hp
          · have hrel : rel = a.1 := List.append_cancel_left heq
            exact (hpair (rel, .sdir n m cs) hxr).1 (by rw [hrel])

/-! ## The concrete scenario of the specification

Source: a directory containing `a.txt` (content "hello") and a subdirectory
`b/` containing `c.txt` (content "world"). -/

/-- The specification's concrete scenario tree. -/
def scenarioTree : SEntry :=
  .sdir "proj" 0o755
    [ .sfile "a.txt" [104, 101, 108, 108, 111] true,
      .sdir "b" 0o755 [ .sfile "c.txt" [119, 111, 114, 108, 100] true ] ]

/-! ## Claim theorems -/

/-- C1 (amended).  For every copy that completes without error — whatever the
destination already held — every source file exists at the corresponding
relative path under the destination with byte-identical content, and every
source directory exists at its relative path.  When the destination is in
addition initially empty below its root, nothing else exists under it, so the
set of relative paths matches the source exactly.  The claim's unrestricted
"matches the source exactly" fails for non-empty destinations (see the
counterexample): the copy merges and leaves stale pre-existing entries in
place. -/
theorem copy_success_replicates {src : SEntry} {dest : Path} {fs fs' : Fs}
    (hd : dest ≠ [])
    (hord : TreeOrdered (entriesFrom [] src))
    (hpc : PrefixClosed (entriesFrom [] src))
    (hcopy : copyDirectory src dest fs = (fs', none)) :
    (∀ rel n c rb, (rel, SEntry.sfile n c rb) ∈ entriesFrom [] src →
       fs'.lookup (dest ++ rel) = some (.nFile c)) ∧
    (∀ rel n m cs, (rel, SEntry.sdir n m cs) ∈ entriesFrom [] src →
       ∃ m', fs'.lookup (dest ++ rel) = some (.nDir m')) ∧
    ((∀ r : Path, r ≠ [] → fs.lookup (dest ++ r) = none) →
       ∀ r : Path, r ≠ [] → ∀ v, fs'.lookup (dest ++ r) = some v →
         r ∈ (entriesFrom [] src).map Prod.fst) := by
  have hmain := filepathWalk_ok_holds hd (entriesFrom [] src) fs fs' hord hcopy
  refine ⟨?_, ?_, ?_⟩
  · intro rel n c rb hmem
    exact hmain (rel, .sfile n c rb) hmem
  · intro rel n m cs hmem
    obtain ⟨m', hm', -⟩ := hmain (rel, .sdir n m cs) hmem
    exact ⟨m', hm'⟩
  · intro hempty r hr v hv
    by_contra hnot
    have h0 : fs.lookup (dest ++ r) = none := hempty r hr
    have hch : (filepathWalk dest fs (entriesFrom [] src)).1.lookup (dest ++ r) ≠
        fs.lookup (dest ++ r) := by
      have hw : filepathWalk dest fs (entriesFrom [] src) = (fs', none) := hcopy
      rw [hw, h0, hv]
      simp
    rcases filepathWalk_changes hch with ⟨-, -, x, hx, hpre⟩ | ⟨x, hx, heq⟩
    · have hp : r <+: x.1 := (List.prefix_append_right_inj dest).mp hpre
      by_cases hlen : r.length = x.1.length
      · exact hnot (hp.eq_of_length hlen ▸ List.mem_map_of_mem Prod.fst hx)
      · have hlt : r.length < x.1.length :=
          Nat.lt_of_le_of_ne hp.length_le hlen
        have htake : x.1.take r.length = r :=
          (List.prefix_iff_eq_take.mp hp).symm
        have := hpc x hx r.length (List.mem_range.mpr hlt)
        rw [htake] at this
        exact hnot this
    · have : r = x.1 := List.append_cancel_left heq
      exact hnot (this ▸ List.mem_map_of_mem Prod.fst hx)

/-- C1 counterexample.  The claim as stated — success implies the destination
tree matches the source exactly — is false when the destination already holds
unrelated content: here the destination `d` already contains a directory
`old`; the copy of a source tree with the single file `a.txt` succeeds, yet
`d/old` is still a directory afterwards while `old` is not a relative path of
any source entry, so the set of relative directory paths does not match the
source. -/
theorem copy_success_replicates_counterexample :
    (copyDirectory (.sdir "p" 7 [.sfile "a.txt" [1] true]) ["d"]
        ⟨[(["d"], .nDir 7), (["d", "old"], .nDir 7)], []⟩).2 = none ∧
    (copyDirectory (.sdir "p" 7 [.sfile "a.txt" [1] true]) ["d"]
        ⟨[(["d"], .nDir 7), (["d", "old"], .nDir 7)], []⟩).1.lookup ["d", "old"] =
      some (.nDir 7) ∧
    ["old"] ∉ (entriesFrom [] (.sdir "p" 7 [.sfile "a.txt" [1] true])).map Prod.fst := by
  refine ⟨?_, ?_, ?_⟩ <;> decide

/-- C1 witness: the amended theorem applied to the specification's concrete
scenario copied into a destination `SANDBOX_proj` that already holds an
unrelated stale file — the per-path replication clause holds with no
emptiness assumption. -/
theorem copy_success_replicates_witness :
    (copyDirectory scenarioTree ["SANDBOX_proj"]
        ⟨[(["SANDBOX_proj"], .nDir 493), (["SANDBOX_proj", "stale"], .nFile [3])],
          []⟩).1.lookup (["SANDBOX_proj"] ++ ["b", "c.txt"]) =
      some (.nFile [119, 111, 114, 108, 100]) := by
  have h := @copy_success_replicates scenarioTree ["SANDBOX_proj"]
      ⟨[(["SANDBOX_proj"], .nDir 493), (["SANDBOX_proj", "stale"], .nFile [3])], []⟩
      (copyDirectory scenarioTree ["SANDBOX_proj"]
        ⟨[(["SANDBOX_proj"], .nDir 493), (["SANDBOX_proj", "stale"], .nFile [3])],
          []⟩).1
      (by decide) (by decide) (by decide) (by decide)
  exact h.1 ["b", "c.txt"] "c.txt" [119, 111, 114, 108, 100] true
    (by simp [scenarioTree, entriesFrom, entriesChildren, SEntry.name])

/-- C5.  Inside one destination's copy, the walk short-circuits: if the visit
list is a successful prefix `l₁` followed by an entry `x` whose step fails
with `e`, the whole walk returns that first error `e`, the remaining entries
`l₂` are never processed (the result does not depend on `l₂`), and the
partially-written destination state `fs₂` — everything the successful prefix
and the failing step wrote — is left in place with no rollback. -/
theorem copy_first_error_aborts {dest : Path} {fs fs₁ fs₂ : Fs}
    {l₁ l₂ : List (Path × SEntry)} {x : Path × SEntry} {e : CopyErr}
    (h₁ : filepathWalk dest fs l₁ = (fs₁, none))
    (h₂ : copyStep dest fs₁ x = (fs₂, some e)) :
    filepathWalk dest fs (l₁ ++ x :: l₂) = (fs₂, some e) := by
  unfold filepathWalk at h₁ ⊢
  rw [runList_append, h₁]
  show runList (copyStep dest) fs₁ (x :: l₂) = (fs₂, some e)
  rw [runList_cons, h₂]

/-- C5 witness: a source whose second entry is an unreadable file; the walk
stops there with `sourceUnreadable`, reports exactly that error, keeps the
directory created by the successful first step, and never processes the third
entry. -/
theorem copy_first_error_aborts_witness :
    filepathWalk ["d"] ⟨[], []⟩
        ([([], .sdir "p" 7 [])] ++
          (["bad.txt"], SEntry.sfile "bad.txt" [1] false) ::
            [(["z.txt"], SEntry.sfile "z.txt" [2] true)]) =
      (⟨[(["d"], .nDir 7)], []⟩, some (.sourceUnreadable ["bad.txt"])) := by
  exact @copy_first_error_aborts ["d"] ⟨[], []⟩ ⟨[(["d"], .nDir 7)], []⟩
    ⟨[(["d"], .nDir 7)], []⟩ [([], .sdir "p" 7 [])]
    [(["z.txt"], SEntry.sfile "z.txt" [2] true)]
    (["bad.txt"], SEntry.sfile "bad.txt" [1] false)
    (.sourceUnreadable ["bad.txt"]) (by decide) (by decide)

/-- C7.  Frame property of one destination's copy, for every outcome (success
or failure): (a) no path outside the destination subtree is ever modified — in
particular the source, which lives outside the destination, is only read — and
(b) every pre-existing path under the destination whose relative path is not a
relative path of some source entry is unchanged (a non-empty destination is
merged into, never cleared).  Hypotheses: the destination root is a proper
path whose strict ancestors exist as directories (in the program
`solutionPath` is created before the copies), and the walk's visit list is
closed under path prefixes, as `filepath.Walk` guarantees for a real tree. -/
theorem copy_does_not_touch_unrelated {src : SEntry} {dest : Path} {fs fs' : Fs}
    {o : Option CopyErr}
    (hanc : ∀ q : Path, q ≠ [] → q <+: dest → q ≠ dest → fs.isDir q = true)
    (hpc : PrefixClosed (entriesFrom [] src))
    (hcopy : copyDirectory src dest fs = (fs', o)) :
    (∀ q : Path, ¬ (dest <+: q) → fs'.lookup q = fs.lookup q) ∧
    (∀ r : Path, r ∉ (entriesFrom [] src).map Prod.fst →
       fs'.lookup (dest ++ r) = fs.lookup (dest ++ r)) := by
  have hw : filepathWalk dest fs (entriesFrom [] src) = (fs', o) := hcopy
  constructor
  · intro q hq
    by_contra hch
    have hch' : (filepathWalk dest fs (entriesFrom [] src)).1.lookup q ≠
        fs.lookup q := by rw [hw]; exact hch
    rcases filepathWalk_changes hch' with ⟨hnone, hne, x, hx, hpre⟩ | ⟨x, hx, heq⟩
    · have hdpre : dest <+: dest ++ x.1 := List.prefix_append dest x.1
      rcases List.prefix_or_prefix_of_prefix hpre hdpre with hqd | hdq
      · have hqd' : q ≠ dest := fun hcon => hq (hcon ▸ List.prefix_rfl)
        obtain ⟨mq, hmq⟩ := Fs.lookup_of_isDir hne (hanc q hne hqd hqd')
        rw [hmq] at hnone
        cases hnone
      · exact hq hdq
    · exact hq (heq ▸ List.prefix_append dest x.1)
  · intro r hr
    by_contra hch
    have hch' : (filepathWalk dest fs (entriesFrom [] src)).1.lookup (dest ++ r) ≠
        fs.lookup (dest ++ r) := by rw [hw]; exact hch
    rcases filepathWalk_changes hch' with ⟨-, -, x, hx, hpre⟩ | ⟨x, hx, heq⟩
    · have hp : r <+: x.1 := (List.prefix_append_right_inj dest).mp hpre
      by_cases hlen : r.length = x.1.length
      · exact hr (hp.eq_of_length hlen ▸ List.mem_map_of_mem Prod.fst hx)
      · have hlt : r.length < x.1.length :=
          Nat.lt_of_le_of_ne hp.length_le hlen
        have htake : x.1.take r.length = r :=
          (List.prefix_iff_eq_take.mp hp).symm
        have := hpc x hx r.length (List.mem_range.mpr hlt)
        rw [htake] at this
        exact hr this
    · have : r = x.1 := List.append_cancel_left heq
      exact hr (this ▸ List.mem_map_of_mem Prod.fst hx)

/-- C7 witness: copying the scenario tree into `DEV_proj` (whose ancestors are
trivial) leaves an unrelated pre-existing file `DEV_proj/notes.md` unchanged,
and leaves the unrelated path `elsewhere` outside the destination unchanged. -/
theorem copy_does_not_touch_unrelated_witness :
    (copyDirectory scenarioTree ["DEV_proj"]
        ⟨[(["DEV_proj"], .nDir 493), (["DEV_proj", "notes.md"], .nFile [7]),
          (["elsewhere"], .nFile [9])], []⟩).1.lookup ["elsewhere"] =
      some (.nFile [9]) ∧
    (copyDirectory scenarioTree ["DEV_proj"]
        ⟨[(["DEV_proj"], .nDir 493), (["DEV_proj", "notes.md"], .nFile [7]),
          (["elsewhere"], .nFile [9])], []⟩).1.lookup (["DEV_proj"] ++ ["notes.md"]) =
      some (.nFile [7]) := by
  have hanc : ∀ q : Path, q ≠ [] → q <+: ["DEV_proj"] → q ≠ ["DEV_proj"] →
      Fs.isDir ⟨[(["DEV_proj"], .nDir 493), (["DEV_proj", "notes.md"], .nFile [7]),
        (["elsewhere"], .nFile [9])], []⟩ q = true := by
    intro q hne hpre hqd
    exfalso
    apply hqd
    apply hpre.eq_of_length
    have h1 := hpre.length_le
    have h2 : 0 < q.length := List.length_pos.mpr hne
    simp only [List.length_cons, List.length_nil] at h1 ⊢
    omega
  have h := @copy_does_not_touch_unrelated scenarioTree ["DEV_proj"]
      ⟨[(["DEV_proj"], .nDir 493), (["DEV_proj", "notes.md"], .nFile [7]),
        (["elsewhere"], .nFile [9])], []⟩
      (copyDirectory scenarioTree ["DEV_proj"]
        ⟨[(["DEV_proj"], .nDir 493), (["DEV_proj", "notes.md"], .nFile [7]),
          (["elsewhere"], .nFile [9])], []⟩).1
      (copyDirectory scenarioTree ["DEV_proj"]
        ⟨[(["DEV_proj"], .nDir 493), (["DEV_proj", "notes.md"], .nFile [7]),
          (["elsewhere"], .nFile [9])], []⟩).2
      hanc (by decide) rfl
  constructor
  · rw [h.1 ["elsewhere"] (by decide)]
    decide
  · rw [h.2 ["notes.md"] (by decide)]
    decide

/-- C8.  Directory handling of the walk callback, in three parts.
(i) When the walk visits a directory entry and its step succeeds, the
corresponding destination directory and all its missing ancestors exist
immediately afterwards — hence before any later entry, in particular any of
that directory's children, is processed.  (ii) A directory created fresh (its
destination path did not exist) receives exactly the source entry's mode, as
passed to `os.MkdirAll(destPath, info.Mode())`.  (iii) Creating a directory
that already exists (with all its ancestors) is not an error and changes
nothing. -/
theorem dir_created_before_children :
    (∀ (dest : Path) (fs fs₂ : Fs) (rel : Path) (n : String) (m : Nat)
        (cs : List SEntry), dest ≠ [] →
        copyStep dest fs (rel, .sdir n m cs) = (fs₂, none) →
        ∀ q ∈ pathsTo (dest ++ rel), ∃ m', fs₂.lookup q = some (.nDir m')) ∧
    (∀ (dest : Path) (fs fs₂ : Fs) (rel : Path) (n : String) (m : Nat)
        (cs : List SEntry), dest ≠ [] →
        fs.lookup (dest ++ rel) = none →
        copyStep dest fs (rel, .sdir n m cs) = (fs₂, none) →
        fs₂.lookup (dest ++ rel) = some (.nDir m)) ∧
    (∀ (dest : Path) (fs : Fs) (rel : Path) (n : String) (m : Nat)
        (cs : List SEntry),
        (∀ q ∈ pathsTo (dest ++ rel), ∃ m', fs.lookup q = some (.nDir m')) →
        copyStep dest fs (rel, .sdir n m cs) = (fs, none)) := by
  refine ⟨?_, ?_, ?_⟩
  · intro dest fs fs₂ rel n m cs _ h
    exact mkdirAll_ok_dirs h
  · intro dest fs fs₂ rel n m cs hd h0 h
    have hne : dest ++ rel ≠ [] := by
      intro hcon
      exact hd (List.append_eq_nil.mp hcon).1
    exact mkdirAll_new_mode hne h0 h
  · intro dest fs rel n m cs h
    exact mkdirAll_noop h

/-- C8 witness: all three parts at concrete inputs — a fresh directory `b`
under `SANDBOX_proj` is created together with its ancestor, receives the
source mode 7, and re-creating an existing chain is a no-op success. -/
theorem dir_created_before_children_witness :
    (∃ m', (copyStep ["SANDBOX_proj"] ⟨[(["SANDBOX_proj"], .nDir 493)], []⟩
        (["b"], .sdir "b" 7 [])).1.lookup ["SANDBOX_proj", "b"] =
        some (.nDir m')) ∧
    (copyStep ["SANDBOX_proj"] ⟨[(["SANDBOX_proj"], .nDir 493)], []⟩
        (["b"], .sdir "b" 7 [])).1.lookup ["SANDBOX_proj", "b"] =
      some (.nDir 7) ∧
    copyStep ["SANDBOX_proj"]
        ⟨[(["SANDBOX_proj"], .nDir 493), (["SANDBOX_proj", "b"], .nDir 7)], []⟩
        (["b"], .sdir "b" 7 []) =
      (⟨[(["SANDBOX_proj"], .nDir 493), (["SANDBOX_proj", "b"], .nDir 7)], []⟩, none) := by
  refine ⟨?_, ?_, ?_⟩
  · exact dir_created_before_children.1 ["SANDBOX_proj"]
      ⟨[(["SANDBOX_proj"], .nDir 493)], []⟩
      (copyStep ["SANDBOX_proj"] ⟨[(["SANDBOX_proj"], .nDir 493)], []⟩
        (["b"], .sdir "b" 7 [])).1
      ["b"] "b" 7 [] (by decide) (by decide) ["SANDBOX_proj", "b"] (by decide)
  · exact dir_created_before_children.2.1 ["SANDBOX_proj"]
      ⟨[(["SANDBOX_proj"], .nDir 493)], []⟩
      (copyStep ["SANDBOX_proj"] ⟨[(["SANDBOX_proj"], .nDir 493)], []⟩
        (["b"], .sdir "b" 7 [])).1
      ["b"] "b" 7 [] (by decide) (by decide) (by decide)
  · refine dir_created_before_children.2.2 ["SANDBOX_proj"]
      ⟨[(["SANDBOX_proj"], .nDir 493), (["SANDBOX_proj", "b"], .nDir 7)], []⟩
      ["b"] "b" 7 [] ?_
    intro q hq
    have hq' : q = ["SANDBOX_proj"] ∨ q = ["SANDBOX_proj", "b"] := by
      have hmem : q ∈ [["SANDBOX_proj"], ["SANDBOX_proj", "b"]] := hq
      simpa using hmem
    rcases hq' with rfl | rfl
    · exact ⟨493, rfl⟩
    · exact ⟨7, rfl⟩

/-- C2.  The fan-out produces exactly one terminal outcome per destination:
`copyToMany` returns as many results as there are destinations, and the result
at every index is exactly the outcome of running that index's destination —
index-aligned attribution.  (Indices beyond the destination count hold no
result, so the alignment is exact in both directions.) -/
theorem one_result_per_destination (src : SEntry) (dests : List DestSpec) :
    (copyToMany src dests).length = dests.length ∧
    ∀ i : Nat, (copyToMany src dests)[i]? = (dests[i]?).map (runEnv src) := by
  constructor
  · simp [copyToMany]
  · intro i
    simp [copyToMany]

/-- C6.  Failure isolation across destinations, in two parts.
(a) The outcome recorded for destination index `j` depends only on that
destination's own specification: two runs whose destination lists agree at
index `j` record the same outcome at `j`, however the other destinations
differ — in particular however many of them fail.  (b) The specification's
isolation scenario: five destinations of which exactly the third has an
unwritable root; the run records exactly one failure, attributed to that
destination (its first file `a.txt` cannot be created), and every other
destination succeeds. -/
theorem failures_isolated_per_destination :
    (∀ (src : SEntry) (ds ds' : List DestSpec) (j : Nat),
        ds[j]? = ds'[j]? →
        (copyToMany src ds)[j]? = (copyToMany src ds')[j]?) ∧
    (copyToMany scenarioTree
        [⟨["SANDBOX_proj"], ⟨[], []⟩⟩, ⟨["DEV_proj"], ⟨[], []⟩⟩,
         ⟨["STAGE_proj"], ⟨[(["STAGE_proj"], .nDir 493)], [["STAGE_proj"]]⟩⟩,
         ⟨["PREPROD_proj"], ⟨[], []⟩⟩, ⟨["PROD_proj"], ⟨[], []⟩⟩]).map Prod.fst =
      [.success, .success,
       .copyFailed (.destWriteFailed ["STAGE_proj", "a.txt"]),
       .success, .success] := by
  constructor
  · intro src ds ds' j h
    simp only [copyToMany, List.getElem?_map, h]
  · decide

/-- C6 witness: part (a) applied at a concrete input — replacing the failing
third destination by a writable one does not change the outcome recorded for
the first destination. -/
theorem failures_isolated_per_destination_witness :
    (copyToMany scenarioTree
        [⟨["SANDBOX_proj"], ⟨[], []⟩⟩,
         ⟨["STAGE_proj"], ⟨[(["STAGE_proj"], .nDir 493)], [["STAGE_proj"]]⟩⟩])[0]? =
      (copyToMany scenarioTree
        [⟨["SANDBOX_proj"], ⟨[], []⟩⟩, ⟨["STAGE_proj"], ⟨[], []⟩⟩])[0]? := by
  exact failures_isolated_per_destination.1 scenarioTree
    [⟨["SANDBOX_proj"], ⟨[], []⟩⟩,
     ⟨["STAGE_proj"], ⟨[(["STAGE_proj"], .nDir 493)], [["STAGE_proj"]]⟩⟩]
    [⟨["SANDBOX_proj"], ⟨[], []⟩⟩, ⟨["STAGE_proj"], ⟨[], []⟩⟩] 0 (by decide)

/-! ## The orchestrator's console output (C9) -/

/-- The messages the program prints during the copy phase, one constructor per
`fmt.Print*` call site: the per-environment `MkdirAll` failure message, the
"Still cooking... setting up X" progress message, the error message printed
inside `copyDirectory` when a copy fails, and the final
"Environment setup completed successfully!" line printed after `wg.Wait()`. -/
inductive Msg where
  | envDirFailed (i : Nat)
  | stillCooking (i : Nat)
  | copyError (i : Nat) (e : CopyErr)
  | setupCompleted
deriving DecidableEq, Repr

/-- The messages attributable to environment number `i` of the `main` loop:
a root-creation failure prints only the failure message (the copy is never
dispatched); a dispatched copy prints the progress message and, on failure,
the error message printed from inside `copyDirectory`.  `copyDirectory`
returns nothing to the orchestrator — its error is consumed by printing. -/
def envMsgs (src : SEntry) (i : Nat) (d : DestSpec) : List Msg :=
  match runEnv src d with
  | (.mkdirFailed _, _) => [.envDirFailed i]
  | (.copyFailed e, _) => [.stillCooking i, .copyError i e]
  | (.success, _) => [.stillCooking i]

/-- The copy-phase output of `main` once the environment loop is reached: the
per-environment messages followed by the final completion line, which is
printed unconditionally after `wg.Wait()`. -/
def mainOutput (src : SEntry) (dests : List DestSpec) : List Msg :=
  ((dests.enum).flatMap fun p => envMsgs src p.1 p.2) ++ [.setupCompleted]

/-- C9.  Whatever the destinations and however many copies fail — including
every one of them — the orchestrator's last message of the copy phase is the
unconditional "Environment setup completed successfully!" line: copy errors
are only ever printed from inside `copyDirectory` and are never returned to
or inspected by the orchestrator. -/
theorem final_message_always_printed (src : SEntry) (dests : List DestSpec) :
    (mainOutput src dests).getLast? = some .setupCompleted := by
  unfold mainOutput
  exact List.getLast?_concat _

/-! ## The WaitGroup orchestration as a transition system (C3, C4, C10)

The environment loop of `main` in `main.go`/`enviorments2remote.go` performs,
per environment `i`: `os.MkdirAll(envDirPath, 0755)` (whether it succeeds is
the run's input `ok i`); on failure `continue` (no `wg.Add`, no goroutine); on
success `wg.Add(1)` and `go copyDirectory(...)`.  After the loop, `wg.Wait()`
blocks until the counter is zero, and each goroutine's deferred `wg.Done()`
decrements the counter exactly once when the goroutine reaches a terminal
state, whether its copy succeeded or failed. -/

/-- The scheduling status of one environment's copy task. -/
inductive TStat where
  | idle
  | running
  | done
deriving DecidableEq, Repr

/-- State of the concurrent orchestration: `idx` is the next environment the
loop will examine, `counter` the WaitGroup counter, `tasks` the status of each
environment's copy task, `joined` whether execution has passed `wg.Wait()`. -/
structure OState where
  idx : Nat
  counter : Nat
  tasks : List TStat
  joined : Bool
deriving DecidableEq, Repr

/-- Initial state: nothing dispatched, counter zero, before the join. -/
def initState (n : Nat) : OState :=
  ⟨0, 0, List.replicate n .idle, false⟩

/-- One interleaving step of the goroutine variants.  `dispatch`: a loop
iteration whose root `MkdirAll` succeeds runs `wg.Add(1)` and launches the
goroutine.  `skip`: a failing root `MkdirAll` prints and continues — no
`wg.Add`, no goroutine.  `finish`: a dispatched copy task reaches its terminal
state (success or failure alike) and its deferred `wg.Done()` decrements the
counter; the guard `tasks[i]? = some running` makes a second decrement of the
same task impossible.  `join`: `wg.Wait()` returns, only once the counter is
zero. -/
inductive OStep (ok : Nat → Bool) (n : Nat) : OState → OState → Prop where
  | dispatch (s : OState) (h : s.idx < n) (hok : ok s.idx = true)
      (hj : s.joined = false) :
      OStep ok n s ⟨s.idx + 1, s.counter + 1, s.tasks.set s.idx .running, false⟩
  | skip (s : OState) (h : s.idx < n) (hok : ok s.idx = false)
      (hj : s.joined = false) :
      OStep ok n s ⟨s.idx + 1, s.counter, s.tasks, false⟩
  | finish (s : OState) (i : Nat) (h : s.tasks[i]? = some .running) :
      OStep ok n s ⟨s.idx, s.counter - 1, s.tasks.set i .done, s.joined⟩
  | join (s : OState) (h : s.idx = n) (hc : s.counter = 0)
      (hj : s.joined = false) :
      OStep ok n s ⟨s.idx, s.counter, s.tasks, true⟩

/-- Reachability of the concurrent orchestration from its initial state. -/
def OReach (ok : Nat → Bool) (n : Nat) (s : OState) : Prop :=
  Relation.ReflTransGen (OStep ok n) (initState n) s

theorem count_set_run {l : List TStat} :
    ∀ {i : Nat}, l[i]? = some .idle →
      (l.set i .running).count .running = l.count .running + 1 := by
  induction l with
  | nil => intro i h; cases h
  | cons a t ih =>
    intro i h
    cases i with
    | zero =>
      rw [List.getElem?_cons_zero] at h
      cases h
      rw [List.set_cons_zero, List.count_cons_self,
        List.count_cons_of_ne (by decide)]
    | succ j =>
      rw [List.getElem?_cons_succ] at h
      rw [List.set_cons_succ]
      cases a with
      | running => rw [List.count_cons_self, List.count_cons_self, ih h]
      | idle =>
        rw [List.count_cons_of_ne (by decide), List.count_cons_of_ne (by decide),
          ih h]
      | done =>
        rw [List.count_cons_of_ne (by decide), List.count_cons_of_ne (by decide),
          ih h]

theorem count_set_done {l : List TStat} :
    ∀ {i : Nat}, l[i]? = some .running →
      l.count .running = (l.set i .done).count .running + 1 := by
  induction l with
  | nil => intro i h; cases h
  | cons a t ih =>
    intro i h
    cases i with
    | zero =>
      rw [List.getElem?_cons_zero] at h
      cases h
      rw [List.set_cons_zero, List.count_cons_self,
        List.count_cons_of_ne (by decide)]
    | succ j =>
      rw [List.getElem?_cons_succ] at h
      rw [List.set_cons_succ]
      cases a with
      | running => rw [List.count_cons_self, List.count_cons_self, ih h]
      | idle =>
        rw [List.count_cons_of_ne (by decide), List.count_cons_of_ne (by decide),
          ih h]
      | done =>
        rw [List.count_cons_of_ne (by decide), List.count_cons_of_ne (by decide),
          ih h]

/-- Invariant of the concurrent orchestration: the WaitGroup counter always
equals the number of currently running copy tasks; past the join the loop is
finished and the counter is zero; environments the loop has not reached, and
environments whose root creation fails, have no task. -/
def OInv (ok : Nat → Bool) (n : Nat) (s : OState) : Prop :=
  s.tasks.length = n ∧
  s.counter = s.tasks.count .running ∧
  s.idx ≤ n ∧
  (s.joined = true → s.idx = n ∧ s.counter = 0) ∧
  (∀ i : Nat, s.idx ≤ i → i < n → s.tasks[i]? = some .idle) ∧
  (∀ i : Nat, i < n → ok i = false → s.tasks[i]? = some .idle)

theorem OInv_init (ok : Nat → Bool) (n : Nat) : OInv ok n (initState n) := by
  refine ⟨List.length_replicate n _, ?_, Nat.zero_le n, ?_, ?_, ?_⟩
  · show (0 : Nat) = (List.replicate n TStat.idle).count .running
    symm
    rw [List.count_eq_zero]
    intro hmem
    cases List.eq_of_mem_replicate hmem
  · intro hcon; cases hcon
  · intro i _ hin
    exact List.getElem?_replicate_of_lt hin
  · intro i hin _
    exact List.getElem?_replicate_of_lt hin

theorem OInv_step {ok : Nat → Bool} {n : Nat} {s s' : OState}
    (hstep : OStep ok n s s') (hinv : OInv ok n s) : OInv ok n s' := by
  obtain ⟨hlen, hcnt, hle, hjoin, hup, hskip⟩ := hinv
  cases hstep with
  | dispatch h hok hj =>
    have hidle : s.tasks[s.idx]? = some .idle := hup s.idx (Nat.le_refl _) h
    refine ⟨by simp [hlen], ?_, h, ?_, ?_, ?_⟩
    · show s.counter + 1 = (s.tasks.set s.idx .running).count .running
      rw [count_set_run hidle, hcnt]
    · intro hcon; cases hcon
    · intro i hi hin
      have hi' : s.idx + 1 ≤ i := hi
      show (s.tasks.set s.idx .running)[i]? = some .idle
      rw [List.getElem?_set_ne (by omega)]
      exact hup i (by omega) hin
    · intro i hin hoki
      have hne : s.idx ≠ i := by
        intro hcon
        rw [← hcon, hok] at hoki
        cases hoki
      show (s.tasks.set s.idx .running)[i]? = some .idle
      rw [List.getElem?_set_ne hne]
      exact hskip i hin hoki
  | skip h hok hj =>
    refine ⟨hlen, hcnt, h, ?_, ?_, hskip⟩
    · intro hcon; cases hcon
    · intro i hi hin
      have hi' : s.idx + 1 ≤ i := hi
      exact hup i (by omega) hin
  | finish i h =>
    have hdec := count_set_done h
    refine ⟨by simp [hlen], ?_, hle, ?_, ?_, ?_⟩
    · show s.counter - 1 = (s.tasks.set i .done).count .running
      omega
    · intro hj
      obtain ⟨hidx, hc0⟩ := hjoin hj
      exfalso
      have hmem : TStat.running ∈ s.tasks := List.getElem?_mem h
      have hpos : 0 < s.tasks.count .running := List.count_pos_iff.mpr hmem
      omega
    · intro i' hi' hin
      have hidle : s.tasks[i']? = some .idle := hup i' hi' hin
      have hne : i ≠ i' := by
        intro hcon
        rw [hcon, hidle] at h
        cases h
      show (s.tasks.set i .done)[i']? = some .idle
      rw [List.getElem?_set_ne hne]
      exact hidle
    · intro i' hin hoki
      have hidle : s.tasks[i']? = some .idle := hskip i' hin hoki
      have hne : i ≠ i' := by
        intro hcon
        rw [hcon, hidle] at h
        cases h
      show (s.tasks.set i .done)[i']? = some .idle
      rw [List.getElem?_set_ne hne]
      exact hidle
  | join h hc hj =>
    exact ⟨hlen, hcnt, hle, fun _ => ⟨h, hc⟩, hup, hskip⟩

theorem OInv_reach {ok : Nat → Bool} {n : Nat} {s : OState}
    (h : OReach ok n s) : OInv ok n s := by
  induction h with
  | refl => exact OInv_init ok n
  | tail hab hbc ih => exact OInv_step hbc ih

/-- C3.  The completion barrier: in every reachable state in which the
orchestrator has proceeded past `wg.Wait()`, the WaitGroup counter is zero and
no dispatched copy task is still running — every task that was dispatched has
reached its terminal state, whether it succeeded or failed.  (That each task
decrements the counter exactly once on both paths is built into the `finish`
step, whose guard requires the task to still be running, and is reflected in
the proven invariant `counter = number of running tasks`.) -/
theorem join_barrier (ok : Nat → Bool) (n : Nat) (s : OState)
    (hreach : OReach ok n s) (hj : s.joined = true) :
    s.counter = 0 ∧ ∀ i : Nat, s.tasks[i]? ≠ some TStat.running := by
  obtain ⟨hlen, hcnt, hle, hjoin, hup, hskip⟩ := OInv_reach hreach
  obtain ⟨hidx, hc0⟩ := hjoin hj
  refine ⟨hc0, fun i hcon => ?_⟩
  have hmem : TStat.running ∈ s.tasks := List.getElem?_mem hcon
  have hpos : 0 < s.tasks.count .running := List.count_pos_iff.mpr hmem
  omega

/-- C3 witness: a concrete complete run with one environment —
dispatch, finish, join — after which the theorem yields a zero counter and no
running task. -/
theorem join_barrier_witness :
    (⟨1, 0, [TStat.done], true⟩ : OState).counter = 0 ∧
    (⟨1, 0, [TStat.done], true⟩ : OState).tasks[0]? ≠ some TStat.running := by
  have h1 : OStep (fun _ => true) 1 (initState 1) ⟨1, 1, [TStat.running], false⟩ :=
    OStep.dispatch (initState 1) (by decide) rfl rfl
  have h2 : OStep (fun _ => true) 1 ⟨1, 1, [TStat.running], false⟩
      ⟨1, 0, [TStat.done], false⟩ :=
    OStep.finish ⟨1, 1, [TStat.running], false⟩ 0 rfl
  have h3 : OStep (fun _ => true) 1 ⟨1, 0, [TStat.done], false⟩
      ⟨1, 0, [TStat.done], true⟩ :=
    OStep.join ⟨1, 0, [TStat.done], false⟩ rfl rfl rfl
  have hreach : OReach (fun _ => true) 1 ⟨1, 0, [TStat.done], true⟩ :=
    Relation.ReflTransGen.head h1 (Relation.ReflTransGen.head h2
      (Relation.ReflTransGen.head h3 Relation.ReflTransGen.refl))
  have h := join_barrier (fun _ => true) 1 ⟨1, 0, [TStat.done], true⟩ hreach rfl
  exact ⟨h.1, h.2 0⟩

/-! ## The sequential variant's orchestration (`src/unnamed/part_000`)

In the unnamed variant the loop body calls `copyDirectory` synchronously:
the copy for environment `i` begins (`start`), the orchestrator is blocked
until it returns (`finish`), and only then does the loop move on.  There is
no WaitGroup.  A `skip` models a failing root `MkdirAll` (`continue`). -/

/-- One step of the sequential variant's loop. -/
inductive SeqStep (ok : Nat → Bool) (n : Nat) : OState → OState → Prop where
  | start (s : OState) (h : s.idx < n) (hok : ok s.idx = true)
      (hidle : s.tasks[s.idx]? = some .idle) :
      SeqStep ok n s ⟨s.idx, s.counter, s.tasks.set s.idx .running, s.joined⟩
  | finish (s : OState) (h : s.tasks[s.idx]? = some .running) :
      SeqStep ok n s ⟨s.idx + 1, s.counter, s.tasks.set s.idx .done, s.joined⟩
  | skip (s : OState) (h : s.idx < n) (hok : ok s.idx = false)
      (hidle : s.tasks[s.idx]? = some .idle) :
      SeqStep ok n s ⟨s.idx + 1, s.counter, s.tasks, s.joined⟩

/-- Reachability of the sequential variant from the initial state. -/
def SeqReach (ok : Nat → Bool) (n : Nat) (s : OState) : Prop :=
  Relation.ReflTransGen (SeqStep ok n) (initState n) s

/-- In the sequential variant, a running copy task is always the one the loop
is currently blocked on: at most one copy is ever in flight. -/
theorem seq_running_is_current {ok : Nat → Bool} {n : Nat} {s : OState}
    (hreach : SeqReach ok n s) :
    ∀ i : Nat, s.tasks[i]? = some TStat.running → i = s.idx := by
  induction hreach with
  | refl =>
    intro i h
    have h' : (List.replicate n TStat.idle)[i]? = some TStat.running := h
    rw [List.getElem?_replicate] at h'
    split at h'
    · cases h'
    · cases h'
  | @tail b c hab hbc ih =>
    cases hbc with
    | start h hok hidle =>
      intro i hi
      show i = b.idx
      by_cases hii : i = b.idx
      · exact hii
      · have hi' : (b.tasks.set b.idx TStat.running)[i]? = some TStat.running := hi
        rw [List.getElem?_set_ne (fun hcon => hii hcon.symm)] at hi'
        exact ih i hi'
    | finish h =>
      intro i hi
      have hi' : (b.tasks.set b.idx TStat.done)[i]? = some TStat.running := hi
      by_cases hii : i = b.idx
      · exfalso
        obtain ⟨hlt, -⟩ := List.getElem?_eq_some.mp h
        rw [hii, List.getElem?_set_self hlt] at hi'
        cases hi'
      · exfalso
        rw [List.getElem?_set_ne (fun hcon => hii hcon.symm)] at hi'
        exact hii (ih i hi')
    | skip h hok hidle =>
      intro i hi
      have hi' : b.tasks[i]? = some TStat.running := hi
      exfalso
      have hii := ih i hi'
      rw [hii, hidle] at hi'
      cases hi'

/-- C4 counterexample.  The claim — the orchestrator dispatches all N copy
units as parallel units of work, without waiting for any copy to finish before
dispatching the next — is false for the sequential variant
(`src/unnamed/part_000`), one of its two cited sources: in that variant's
orchestration no reachable state ever has even two of the five environments'
copies in flight at once, so in particular all five are never dispatched
before the first finishes. -/
theorem parallel_dispatch_counterexample :
    ¬ ∃ s : OState, SeqReach (fun _ => true) environments.length s ∧
        s.tasks[0]? = some TStat.running ∧ s.tasks[1]? = some TStat.running := by
  rintro ⟨s, hreach, h0, h1⟩
  have e0 := seq_running_is_current hreach 0 h0
  have e1 := seq_running_is_current hreach 1 h1
  omega

/-- C4 (amended).  The goroutine variants (`main.go`,
`enviorments2remote.go`) do dispatch all copies without waiting: their
orchestration reaches a state in which all five environments' copy tasks are
dispatched and running simultaneously, none having finished — true fan-out.
The sequential variant runs the copies one after another (see the
counterexample). -/
theorem all_copies_dispatched_before_any_finishes :
    OReach (fun _ => true) environments.length
      ⟨environments.length, environments.length,
        List.replicate environments.length TStat.running, false⟩ := by
  have d0 : OStep (fun _ => true) 5
      ⟨0, 0, [.idle, .idle, .idle, .idle, .idle], false⟩
      ⟨1, 1, [.running, .idle, .idle, .idle, .idle], false⟩ :=
    OStep.dispatch ⟨0, 0, [.idle, .idle, .idle, .idle, .idle], false⟩
      (by decide) rfl rfl
  have d1 : OStep (fun _ => true) 5
      ⟨1, 1, [.running, .idle, .idle, .idle, .idle], false⟩
      ⟨2, 2, [.running, .running, .idle, .idle, .idle], false⟩ :=
    OStep.dispatch ⟨1, 1, [.running, .idle, .idle, .idle, .idle], false⟩
      (by decide) rfl rfl
  have d2 : OStep (fun _ => true) 5
      ⟨2, 2, [.running, .running, .idle, .idle, .idle], false⟩
      ⟨3, 3, [.running, .running, .running, .idle, .idle], false⟩ :=
    OStep.dispatch ⟨2, 2, [.running, .running, .idle, .idle, .idle], false⟩
      (by decide) rfl rfl
  have d3 : OStep (fun _ => true) 5
      ⟨3, 3, [.running, .running, .running, .idle, .idle], false⟩
      ⟨4, 4, [.running, .running, .running, .running, .idle], false⟩ :=
    OStep.dispatch ⟨3, 3, [.running, .running, .running, .idle, .idle], false⟩
      (by decide) rfl rfl
  have d4 : OStep (fun _ => true) 5
      ⟨4, 4, [.running, .running, .running, .running, .idle], false⟩
      ⟨5, 5, [.running, .running, .running, .running, .running], false⟩ :=
    OStep.dispatch ⟨4, 4, [.running, .running, .running, .running, .idle], false⟩
      (by decide) rfl rfl
  exact Relation.ReflTransGen.head d0 (Relation.ReflTransGen.head d1
    (Relation.ReflTransGen.head d2 (Relation.ReflTransGen.head d3
      (Relation.ReflTransGen.head d4 Relation.ReflTransGen.refl))))

/-- The task list at the end of the loop when the first `k` environments have
been processed: a processed environment's task is `done` if its root creation
succeeded (its copy was dispatched and ran to its terminal state) and remains
absent (`idle`) if its root creation failed and it was skipped. -/
def finalTasks (ok : Nat → Bool) (k : Nat) : List TStat :=
  (List.range k).map (fun i => if ok i then .done else .idle)

theorem reach_loop_end (ok : Nat → Bool) (n : Nat) :
    ∀ k : Nat, k ≤ n →
      OReach ok n ⟨k, 0, finalTasks ok k ++ List.replicate (n - k) TStat.idle,
        false⟩ := by
  intro k
  induction k with
  | zero =>
    intro _
    have htasks : finalTasks ok 0 ++ List.replicate (n - 0) TStat.idle =
        List.replicate n TStat.idle := by
      simp [finalTasks]
    rw [htasks]
    exact Relation.ReflTransGen.refl
  | succ k ih =>
    intro hk1
    have hk : k < n := hk1
    have hreach := ih (Nat.le_of_lt hk)
    have hlenf : (finalTasks ok k).length = k := by simp [finalTasks]
    have hrep : List.replicate (n - k) TStat.idle =
        TStat.idle :: List.replicate (n - (k + 1)) TStat.idle := by
      have hnk : n - k = (n - (k + 1)) + 1 := by omega
      rw [hnk, List.replicate_succ]
    have hsplit : finalTasks ok (k + 1) =
        finalTasks ok k ++ [if ok k then TStat.done else TStat.idle] := by
      simp [finalTasks, List.range_succ]
    cases hok : ok k with
    | false =>
      have hstep := OStep.skip
          ⟨k, 0, finalTasks ok k ++ List.replicate (n - k) TStat.idle, false⟩
          hk hok rfl
      have htasks : finalTasks ok k ++ List.replicate (n - k) TStat.idle =
          finalTasks ok (k + 1) ++ List.replicate (n - (k + 1)) TStat.idle := by
        rw [hsplit, hok, hrep]
        simp
      have hr := Relation.ReflTransGen.tail hreach hstep
      rw [htasks] at hr
      exact hr
    | true =>
      have hstep1 := OStep.dispatch
          ⟨k, 0, finalTasks ok k ++ List.replicate (n - k) TStat.idle, false⟩
          hk hok rfl
      have hr1 := Relation.ReflTransGen.tail hreach hstep1
      have hset1 : (finalTasks ok k ++ List.replicate (n - k) TStat.idle).set k
          TStat.running =
          finalTasks ok k ++ TStat.running ::
            List.replicate (n - (k + 1)) TStat.idle := by
        rw [List.set_append_right _ _ (Nat.le_of_eq hlenf), hlenf, hrep]
        simp
      rw [hset1] at hr1
      have hget : (finalTasks ok k ++ TStat.running ::
          List.replicate (n - (k + 1)) TStat.idle)[k]? = some TStat.running := by
        rw [List.getElem?_append_right (Nat.le_of_eq hlenf), hlenf]
        simp
      have hstep2 := @OStep.finish ok n
          ⟨k + 1, 1, finalTasks ok k ++ TStat.running ::
            List.replicate (n - (k + 1)) TStat.idle, false⟩
          k hget
      have hr2 := Relation.ReflTransGen.tail hr1 hstep2
      have hset2 : (finalTasks ok k ++ TStat.running ::
          List.replicate (n - (k + 1)) TStat.idle).set k TStat.done =
          finalTasks ok (k + 1) ++ List.replicate (n - (k + 1)) TStat.idle := by
        rw [List.set_append_right _ _ (Nat.le_of_eq hlenf), hlenf, hsplit, hok]
        simp
      rw [hset2] at hr2
      exact hr2

theorem reach_joined (ok : Nat → Bool) (n : Nat) :
    ∃ s : OState, OReach ok n s ∧ s.joined = true ∧ s.idx = n := by
  have hend := reach_loop_end ok n n (Nat.le_refl n)
  refine ⟨⟨n, 0, finalTasks ok n ++ List.replicate (n - n) TStat.idle, true⟩,
    ?_, rfl, rfl⟩
  refine Relation.ReflTransGen.tail hend ?_
  exact OStep.join
    ⟨n, 0, finalTasks ok n ++ List.replicate (n - n) TStat.idle, false⟩ rfl rfl rfl

/-- C10.  (a) An environment whose root directory creation fails is skipped:
in every reachable state of the orchestration, such an environment's copy
task was never dispatched (so it never contributed to the WaitGroup counter,
which provably always equals the number of running tasks).  (b) Skipping
never stops the loop: whatever subset of the environments fails its root
creation, the orchestrator still processes all `n` environments in order and
reaches the join. -/
theorem skipped_env_not_dispatched :
    (∀ (ok : Nat → Bool) (n : Nat) (s : OState), OReach ok n s →
        ∀ i : Nat, i < n → ok i = false → s.tasks[i]? = some TStat.idle) ∧
    (∀ (ok : Nat → Bool) (n : Nat), ∃ s : OState,
        OReach ok n s ∧ s.joined = true ∧ s.idx = n) := by
  constructor
  · intro ok n s hreach i hin hoki
    exact (OInv_reach hreach).2.2.2.2.2 i hin hoki
  · exact reach_joined

/-- C10 witness: with two environments of which the second's root creation
fails, after dispatching the first and skipping the second the second task is
still `idle`; part (b) instantiated at the same inputs yields a completed
joined run. -/
theorem skipped_env_not_dispatched_witness :
    (⟨2, 1, [TStat.running, TStat.idle], false⟩ : OState).tasks[1]? =
      some TStat.idle ∧
    ∃ s : OState, OReach (fun i => decide (i ≠ 1)) 2 s ∧
      s.joined = true ∧ s.idx = 2 := by
  constructor
  · have h1 : OStep (fun i => decide (i ≠ 1)) 2 (initState 2)
        ⟨1, 1, [TStat.running, TStat.idle], false⟩ :=
      OStep.dispatch (initState 2) (by decide) (by decide) rfl
    have h2 : OStep (fun i => decide (i ≠ 1)) 2
        ⟨1, 1, [TStat.running, TStat.idle], false⟩
        ⟨2, 1, [TStat.running, TStat.idle], false⟩ :=
      OStep.skip ⟨1, 1, [TStat.running, TStat.idle], false⟩ (by decide)
        (by decide) rfl
    have hreach : OReach (fun i => decide (i ≠ 1)) 2
        ⟨2, 1, [TStat.running, TStat.idle], false⟩ :=
      Relation.ReflTransGen.head h1
        (Relation.ReflTransGen.head h2 Relation.ReflTransGen.refl)
    exact skipped_env_not_dispatched.1 (fun i => decide (i ≠ 1)) 2
      ⟨2, 1, [TStat.running, TStat.idle], false⟩ hreach 1 (by decide) (by decide)
  · exact skipped_env_not_dispatched.2 (fun i => decide (i ≠ 1)) 2

end EnvScripts
